import Mathlib

/-!
# Verification of the portfolio analytics engine

Shallow embedding of the `Portfolio` class (src/portfolio.py) and the
sensitivity sweep (src/sensitivity_analysis.py).

Modelling conventions:
* Price and return values are embedded as exact rationals (`ℚ`); the Python
  code computes with IEEE doubles, so equalities claimed "within
  floating-point tolerance" are proved exactly over `ℚ`.
* A pandas cell that may be NaN (missing market data, or the first row of
  `pct_change`) is `Option ℚ`, with `none` playing the role of NaN.
* A pandas DataFrame is a list of rows (one row per date), each row a list
  of cells (one per ticker column).
* Statistics whose value involves a square root (`std` and everything built
  from it) land in `Option ℝ`: `none` is NaN (the pandas sample std of
  fewer than two observations), `some x` a finite value.
* Division by zero: `ℚ`/`ℝ` division by zero yields `0` where IEEE yields
  `±inf` or NaN; theorems touching a quotient carry hypotheses keeping the
  divisor nonzero, so no statement relies on that corner.
-/

namespace PortfolioSpec

/-- Immutable (ticker, weight) pair: `TickerWeight = namedtuple('TickerWeight', ['ticker', 'weight'])`. -/
structure TickerWeight where
  ticker : String
  weight : ℚ
deriving DecidableEq

/-- Weight normalization from `Portfolio.__post_init__`:
`self.weights = self.weights / np.sum(self.weights)`. -/
def normalizeWeights (ws : List ℚ) : List ℚ :=
  ws.map (fun w => w / ws.sum)

/-- `self.tickers = [asset.ticker for asset in self.assets]`. -/
def tickersOf (assets : List TickerWeight) : List String :=
  assets.map TickerWeight.ticker

/-- `self.weights = np.array([asset.weight for asset in self.assets])` before normalization. -/
def rawWeights (assets : List TickerWeight) : List ℚ :=
  assets.map TickerWeight.weight

/-- The `weights` attribute stored after `__post_init__`: raw weights, normalized. -/
def weightsOf (assets : List TickerWeight) : List ℚ :=
  normalizeWeights (rawWeights assets)

/-- One cell of `DataFrame.pct_change()`: fractional change from the previous
observation. NaN (`none`) when either observation is missing, and in the
`0/0` case (both prices zero), which IEEE evaluates to NaN; a zero previous
price with a nonzero current one gives `±inf` in IEEE, which `dropna` keeps,
so it is modelled by the (kept) junk value that `ℚ` division by zero yields. -/
def pctCell : Option ℚ → Option ℚ → Option ℚ
  | some x, some y => if x = 0 ∧ y = 0 then none else some ((y - x) / x)
  | _, _ => none

/-- `DataFrame.pct_change()`: the first row is all-NaN (no prior period);
row `t+1` is the cellwise fractional change from row `t` to row `t+1`. -/
def pct_change (data : List (List (Option ℚ))) : List (List (Option ℚ)) :=
  match data with
  | [] => []
  | r0 :: _ =>
      (r0.map fun _ => (none : Option ℚ)) ::
        (data.zip data.tail).map fun p => (p.1.zip p.2).map fun q => pctCell q.1 q.2

/-- `DataFrame.dropna()`: keep exactly the rows with no NaN cell. -/
def dropna (data : List (List (Option ℚ))) : List (List (Option ℚ)) :=
  data.filter (fun r => r.all Option.isSome)

/-- `Portfolio.calculate_market_returns`:
`returns = self.market_data.pct_change().dropna()`. -/
def calculate_market_returns (market_data : List (List (Option ℚ))) :
    List (List (Option ℚ)) :=
  dropna (pct_change market_data)

/-- Reads the float entries out of a DataFrame all of whose cells are
non-NaN (as `dropna` guarantees for `market_returns`). -/
def toValues (data : List (List (Option ℚ))) : List (List ℚ) :=
  data.map (fun r => r.filterMap id)

/-- Dot product of a returns row with the weight vector (one term of
`market_returns @ weights`). -/
def dot (row w : List ℚ) : ℚ :=
  (List.zipWith (fun a b => a * b) row w).sum

/-- `portfolio_returns = self.market_returns @ self.weights`: one weighted
sum per period (row). -/
def portfolio_returns (market_returns : List (List ℚ)) (w : List ℚ) : List ℚ :=
  market_returns.map (fun row => dot row w)

/-- Running products with accumulator `acc`: the spine of `Series.cumprod()`. -/
def cumprodAux (acc : ℚ) : List ℚ → List ℚ
  | [] => []
  | x :: xs => (acc * x) :: cumprodAux (acc * x) xs

/-- `Series.cumprod()`. -/
def cumprod (xs : List ℚ) : List ℚ :=
  cumprodAux 1 xs

/-- `portfolio_value = (1 + portfolio_returns).cumprod()`, as a function of
the portfolio return series. -/
def portfolio_value (rs : List ℚ) : List ℚ :=
  cumprod (rs.map (fun r => 1 + r))

/-- `cumulative_pnl = portfolio_value - 1`. -/
def cumulative_pnl (rs : List ℚ) : List ℚ :=
  (portfolio_value rs).map (fun v => v - 1)

/-- `Series.diff().fillna(0)`: first entry NaN filled with 0, then
successive differences. -/
def diffFill (v : List ℚ) : List ℚ :=
  match v with
  | [] => []
  | _ :: _ => 0 :: (v.zip v.tail).map (fun p => p.2 - p.1)

/-- `pnl = portfolio_value.diff().fillna(0)`. -/
def pnl (rs : List ℚ) : List ℚ :=
  diffFill (portfolio_value rs)

/-- `Portfolio.portfolio_return_metrics`: the four series
`(portfolio_returns, portfolio_value, cumulative_pnl, pnl)` computed from the
`market_returns` table and the normalized weights. -/
def portfolio_return_metrics (market_returns : List (List ℚ)) (w : List ℚ) :
    List ℚ × List ℚ × List ℚ × List ℚ :=
  let rs := portfolio_returns market_returns w
  (rs, portfolio_value rs, cumulative_pnl rs, pnl rs)

/-- `Series.mean()` of a non-empty series (pandas gives NaN on an empty one;
every use below is guarded by non-emptiness where it matters). -/
def mean (xs : List ℚ) : ℚ :=
  xs.sum / xs.length

/-- Sample variance with `ddof = 1`, pandas default for `Series.std()`:
`Σ (x - mean)² / (n - 1)`, NaN (`none`) for fewer than two observations. -/
def sampleVar (xs : List ℚ) : Option ℚ :=
  if xs.length ≤ 1 then none
  else some ((xs.map (fun x => (x - mean xs) ^ 2)).sum / ((xs.length : ℚ) - 1))

/-- `Series.std()`: square root of the sample variance, NaN for fewer than
two observations. -/
noncomputable def sampleStd (xs : List ℚ) : Option ℝ :=
  (sampleVar xs).map (fun v => Real.sqrt (v : ℝ))

/-- Sample covariance with `ddof = 1` (`Series.cov`). -/
def sampleCov (xs ys : List ℚ) : Option ℚ :=
  if xs.length ≤ 1 then none
  else some ((List.zipWith (fun a b => (a - mean xs) * (b - mean ys)) xs ys).sum /
    ((xs.length : ℚ) - 1))

/-- `portfolio_beta = portfolio_returns.cov(market_returns) / market_returns.var()`
where `market_returns = self.market_returns.mean(axis=1)`. -/
def portfolio_beta (rs benchmark : List ℚ) : Option ℚ :=
  match sampleCov rs benchmark, sampleVar benchmark with
  | some c, some v => some (c / v)
  | _, _ => none

/-- Column `i` of the `market_returns` table (asset `i` has one return per
period — one table row each). -/
def columnGet (market_returns : List (List ℚ)) (i : ℕ) : List ℚ :=
  market_returns.map (fun row => row.getD i 0)

/-- `self.market_returns.std(axis=0)`: per-column sample std, one entry per
ticker column (there are as many columns as assets). -/
noncomputable def stdAxis0 (market_returns : List (List ℚ)) (ncols : ℕ) : List (Option ℝ) :=
  (List.range ncols).map (fun i => sampleStd (columnGet market_returns i))

/-- `Portfolio.asset_volatility_decomposition`:
`asset_volatilities = self.market_returns.std(axis=0)` multiplied
entrywise (positionally) by `self.weights`. -/
noncomputable def asset_volatility_decomposition (market_returns : List (List ℚ)) (w : List ℚ) :
    List (Option ℝ) :=
  List.zipWith (fun s x => s.map (fun v => v * (x : ℝ))) (stdAxis0 market_returns w.length) w

/-- `Series.quantile(alpha)` with the default linear interpolation: with the
series sorted ascending and `h = alpha * (n - 1)`, the result interpolates
between the entries at positions `⌊h⌋` and `⌈h⌉`; NaN on an empty series. -/
def quantile (rs : List ℚ) (α : ℚ) : Option ℚ :=
  match rs with
  | [] => none
  | _ :: _ =>
      let s := rs.insertionSort (· ≤ ·)
      let h : ℚ := α * ((rs.length : ℚ) - 1)
      let lo := s.getD (Int.toNat ⌊h⌋) 0
      let hi := s.getD (Int.toNat ⌈h⌉) 0
      some (lo + (h - (⌊h⌋ : ℚ)) * (hi - lo))

/-- CVaR: `portfolio_var = portfolio_returns.quantile(alpha)` then
`portfolio_cvar = portfolio_returns[portfolio_returns <= portfolio_var].mean()`
(the mean of an empty selection being NaN). -/
def portfolio_cvar (rs : List ℚ) (α : ℚ) : Option ℚ :=
  match quantile rs α with
  | none => none
  | some q =>
      let sel := rs.filter (fun r => r ≤ q)
      if sel.isEmpty then none else some (mean sel)

/-- `portfolio_annualized_std = portfolio_returns.std() * np.sqrt(12) * 100`. -/
noncomputable def portfolio_annualized_std (rs : List ℚ) : Option ℝ :=
  (sampleStd rs).map (fun s => s * Real.sqrt 12 * 100)

/-- `annualized_sharpe_ratio = (portfolio_returns.mean() - risk_free_rate)
/ portfolio_annualized_std * np.sqrt(12)` — the divisor is the already
×100-scaled annualized std. -/
noncomputable def annualized_sharpe (rs : List ℚ) (rf : ℚ) : Option ℝ :=
  (portfolio_annualized_std rs).map (fun s => ((mean rs - rf : ℚ) : ℝ) / s * Real.sqrt 12)

/-- The sub-threshold returns:
`downside_returns = portfolio_returns[portfolio_returns < risk_free_rate]`. -/
def downside_returns (rs : List ℚ) (rf : ℚ) : List ℚ :=
  rs.filter (fun r => r < rf)

/-- The Sortino ratio of `portfolio_volatility_metrics`:
`downside_std = downside_returns.std() if not downside_returns.empty else np.nan`
(the std of fewer than two observations is itself NaN), then
`sortino_ratio = (portfolio_returns.mean() - risk_free_rate) / downside_std`
`if not np.isnan(downside_std) else np.nan`. -/
noncomputable def sortino (rs : List ℚ) (rf : ℚ) : Option ℝ :=
  match sampleStd (downside_returns rs rf) with
  | none => none
  | some s => some (((mean rs - rf : ℚ) : ℝ) / s)

/-- Synthetic two-asset price table with constant per-period returns: asset 1
has prices `a*(1+r1)^t`, asset 2 has prices `b*(1+r2)^t`, over `T+1` dates
(hence `T` return periods). -/
def priceTable (a b r1 r2 : ℚ) (T : ℕ) : List (List (Option ℚ)) :=
  (List.range (T + 1)).map (fun t => [some (a * (1 + r1) ^ t), some (b * (1 + r2) ^ t)])

/-- `np.arange(start, stop, step)`: `⌈(stop - start)/step⌉` evenly spaced
values from `start` (exclusive of `stop`). -/
def arange (start stop step : ℚ) : List ℚ :=
  (List.range (Int.toNat ⌈(stop - start) / step⌉)).map (fun k => start + (k : ℚ) * step)

/-- The sweep grid of `plot_sensitivity_analysis`:
`np.arange(0, 0.21, 0.05)`. -/
def tips_grid : List ℚ :=
  arange 0 (21 / 100) (1 / 20)

/-- The raw weight vectors of the sweep:
`weights = [0.6, 0.4 - tips_allocation, tips_allocation]` per grid point. -/
def sweep_weights : List (List ℚ) :=
  tips_grid.map (fun p => [3 / 5, 2 / 5 - p, p])

/-- The normalized weight vector stored by each Portfolio the sweep
constructs, in grid order. -/
def sweep_portfolios : List (List ℚ) :=
  sweep_weights.map normalizeWeights

/-- `Portfolio.portfolio_volatility_metrics`: the 5-tuple
`(annualized std, beta, annualized Sharpe, CVaR, Sortino)`, computed from
the `market_returns` table and the normalized weights; the benchmark for
beta is `self.market_returns.mean(axis=1)`, the per-period mean across
tickers. -/
noncomputable def portfolio_volatility_metrics (market_returns : List (List ℚ)) (w : List ℚ)
    (rf α : ℚ) : Option ℝ × Option ℚ × Option ℝ × Option ℚ × Option ℝ :=
  let rs := portfolio_returns market_returns w
  let benchmark := market_returns.map mean
  (portfolio_annualized_std rs, portfolio_beta rs benchmark,
    annualized_sharpe rs rf, portfolio_cvar rs α, sortino rs rf)

/-- The per-grid-point record the sweep collects: the scalar metrics
`(sharpe_ratio, cvar, sortino_ratio)` from `portfolio_volatility_metrics()`
(default `risk_free_rate = 0`, `alpha = 0.05`), the full `portfolio_value`
series, and `portfolio_value.iloc[-1]` (the net return), for the Portfolio
built at one grid point, all from the shared `market_returns` table. -/
noncomputable def sweep_point (market_returns : List (List ℚ)) (w : List ℚ) :
    (Option ℝ × Option ℚ × Option ℝ) × List ℚ × ℚ :=
  let m := portfolio_volatility_metrics market_returns w 0 (1 / 20)
  let value := (portfolio_return_metrics market_returns w).2.1
  ((m.2.2.1, m.2.2.2.1, m.2.2.2.2), value, value.getD (value.length - 1) 0)

/-- The sweep's collected metrics, one record per grid point, in grid
order (the loop body of `plot_sensitivity_analysis`). -/
noncomputable def sweep_metrics (market_returns : List (List ℚ)) :
    List ((Option ℝ × Option ℚ × Option ℝ) × List ℚ × ℚ) :=
  sweep_portfolios.map (fun w => sweep_point market_returns w)

/-! ## Helper lemmas -/

theorem sum_map_div (l : List ℚ) (s : ℚ) :
    (l.map (fun w => w / s)).sum = l.sum / s := by
  induction l with
  | nil => simp
  | cons x xs ih => simp [ih, add_div]

theorem normalizeWeights_sum (ws : List ℚ) (h : ws.sum ≠ 0) :
    (normalizeWeights ws).sum = 1 := by
  rw [normalizeWeights, sum_map_div, div_self h]

theorem dot_nil (w : List ℚ) : dot [] w = 0 := rfl

theorem dot_eq_sum (row w : List ℚ) (h : row.length = w.length) :
    dot row w = ∑ i ∈ Finset.range w.length, w.getD i 0 * row.getD i 0 := by
  induction w generalizing row with
  | nil =>
    have : row = [] := List.length_eq_zero.mp h
    simp [this, dot]
  | cons b bs ih =>
    cases row with
    | nil => simp at h
    | cons a as =>
      have h' : as.length = bs.length := by simpa using h
      have hih := ih as h'
      simp only [List.length_cons]
      rw [Finset.sum_range_succ']
      simp only [List.getD_cons_succ, List.getD_cons_zero]
      rw [show dot (a :: as) (b :: bs) = a * b + dot as bs by simp [dot], hih]
      ring

/-- `zip` of a `range`-generated list with its shift, mapped: turns the
row-pairing done by `pct_change` into an indexed description. -/
theorem zip_shift_map {α β : Type} (g : α × α → β) (n : ℕ) (G : ℕ → α) :
    ((((List.range (n + 1)).map G).zip ((List.range n).map (fun t => G (t + 1)))).map g)
      = (List.range n).map (fun t => g (G t, G (t + 1))) := by
  apply List.ext_getElem
  · simp [Nat.min_def, Nat.le_succ]
  · intro i h1 h2
    have hi : i < n := by simpa using h2
    have hi1 : i < n + 1 := Nat.lt_succ_of_lt hi
    simp [List.getElem_zip, hi, hi1]

/-- `pct_change` of a table whose row at date `t` is `F t`: an all-NaN first
row, then the cellwise changes between consecutive rows. -/
theorem pct_change_ofFn (F : ℕ → List (Option ℚ)) (T : ℕ) :
    pct_change ((List.range (T + 1)).map F) =
      ((F 0).map fun _ => none) ::
        (List.range T).map
          (fun t => ((F t).zip (F (t + 1))).map fun q => pctCell q.1 q.2) := by
  have hcons : (List.range (T + 1)).map F = F 0 :: ((List.range T).map fun t => F (t + 1)) := by
    rw [List.range_succ_eq_map]
    simp [List.map_map, Function.comp]
  rw [hcons, pct_change]
  simp only [List.tail_cons]
  congr 1
  have := zip_shift_map (fun q : List (Option ℚ) × List (Option ℚ) =>
    (q.1.zip q.2).map fun c => pctCell c.1 c.2) T F
  rw [← hcons] at *
  simpa using this

/-- Change of a geometric price series over one period is the constant
per-period return. -/
theorem pctCell_geom (a r : ℚ) (t : ℕ) (ha : a ≠ 0) (hr : 1 + r ≠ 0) :
    pctCell (some (a * (1 + r) ^ t)) (some (a * (1 + r) ^ (t + 1))) = some r := by
  have hx : a * (1 + r) ^ t ≠ 0 := mul_ne_zero ha (pow_ne_zero _ hr)
  simp only [pctCell]
  rw [if_neg (fun hc => hx hc.1)]
  congr 1
  rw [div_eq_iff hx]
  ring

/-- The market-returns table of the synthetic constant-return price table:
`T` identical rows `[r1, r2]`. -/
theorem calculate_market_returns_priceTable (a b r1 r2 : ℚ) (T : ℕ)
    (ha : a ≠ 0) (hb : b ≠ 0) (h1 : 1 + r1 ≠ 0) (h2 : 1 + r2 ≠ 0) :
    calculate_market_returns (priceTable a b r1 r2 T) =
      List.replicate T [some r1, some r2] := by
  unfold calculate_market_returns priceTable
  rw [pct_change_ofFn]
  have hrow : ∀ t : ℕ,
      (([some (a * (1 + r1) ^ t), some (b * (1 + r2) ^ t)].zip
        [some (a * (1 + r1) ^ (t + 1)), some (b * (1 + r2) ^ (t + 1))]).map
          fun q => pctCell q.1 q.2) = [some r1, some r2] := by
    intro t
    simp [pctCell_geom a r1 t ha h1, pctCell_geom b r2 t hb h2]
  unfold dropna
  rw [List.filter_cons_of_neg (by simp)]
  have hmap : ((List.range T).map fun t =>
      (([some (a * (1 + r1) ^ t), some (b * (1 + r2) ^ t)].zip
        [some (a * (1 + r1) ^ (t + 1)), some (b * (1 + r2) ^ (t + 1))]).map
          fun q => pctCell q.1 q.2)) = List.replicate T [some r1, some r2] := by
    rw [List.eq_replicate_iff]
    refine ⟨by simp, ?_⟩
    intro x hx
    rcases List.mem_map.mp hx with ⟨t, _, rfl⟩
    exact hrow t
  rw [hmap, List.filter_eq_self.mpr (by intro x hx; simp [List.eq_of_mem_replicate hx])]

theorem cumprodAux_length (acc : ℚ) (xs : List ℚ) :
    (cumprodAux acc xs).length = xs.length := by
  induction xs generalizing acc with
  | nil => rfl
  | cons x xs ih => simp [cumprodAux, ih]

theorem cumprodAux_getD_zero (acc : ℚ) (xs : List ℚ) (h : 0 < xs.length) :
    (cumprodAux acc xs).getD 0 0 = acc * xs.getD 0 0 := by
  cases xs with
  | nil => simp at h
  | cons x xs => simp [cumprodAux]

theorem cumprodAux_getD_succ (acc : ℚ) (xs : List ℚ) (t : ℕ) (h : t + 1 < xs.length) :
    (cumprodAux acc xs).getD (t + 1) 0 =
      (cumprodAux acc xs).getD t 0 * xs.getD (t + 1) 0 := by
  induction xs generalizing acc t with
  | nil => simp at h
  | cons x xs ih =>
    cases t with
    | zero =>
      have h0 : 0 < xs.length := by simpa using h
      simp only [cumprodAux, List.getD_cons_succ, List.getD_cons_zero]
      exact cumprodAux_getD_zero (acc * x) xs h0
    | succ s =>
      have h1 : s + 1 < xs.length := by simpa using h
      simp only [cumprodAux, List.getD_cons_succ]
      exact ih (acc * x) s h1

theorem portfolio_value_length (rs : List ℚ) :
    (portfolio_value rs).length = rs.length := by
  simp [portfolio_value, cumprod, cumprodAux_length]

theorem portfolio_value_getD_zero (rs : List ℚ) (h : rs ≠ []) :
    (portfolio_value rs).getD 0 0 = 1 + rs.getD 0 0 := by
  cases rs with
  | nil => exact absurd rfl h
  | cons r rest => simp [portfolio_value, cumprod, cumprodAux]

theorem portfolio_value_getD_succ (rs : List ℚ) (t : ℕ) (h : t + 1 < rs.length) :
    (portfolio_value rs).getD (t + 1) 0 =
      (portfolio_value rs).getD t 0 * (1 + rs.getD (t + 1) 0) := by
  have hlen : t + 1 < (rs.map (fun r => 1 + r)).length := by simpa using h
  have hstep := cumprodAux_getD_succ 1 (rs.map (fun r => 1 + r)) t hlen
  have hmap : (rs.map (fun r => 1 + r)).getD (t + 1) 0 = 1 + rs.getD (t + 1) 0 := by
    rw [List.getD_eq_getElem _ _ hlen, List.getElem_map,
      List.getD_eq_getElem _ _ h]
  rw [portfolio_value, cumprod, hstep, hmap]

theorem diffFill_getD_zero (v : List ℚ) (h : v ≠ []) :
    (diffFill v).getD 0 0 = 0 := by
  cases v with
  | nil => exact absurd rfl h
  | cons x tl => simp [diffFill]

theorem diffFill_getD_succ (v : List ℚ) (t : ℕ) (h : t + 1 < v.length) :
    (diffFill v).getD (t + 1) 0 = v.getD (t + 1) 0 - v.getD t 0 := by
  cases v with
  | nil => simp at h
  | cons x tl =>
    have ht : t < tl.length := by simpa using h
    have hzlen : t < (((x :: tl).zip tl).map (fun p => p.2 - p.1)).length := by
      simp [List.length_zip]
      omega
    simp only [diffFill, List.tail_cons, List.getD_cons_succ]
    rw [List.getD_eq_getElem _ _ hzlen, List.getElem_map, List.getElem_zip]
    rw [List.getD_eq_getElem _ _ ht,
      List.getD_eq_getElem _ _ (show t < (x :: tl).length by simp; omega)]

/-- In a sorted list, the interpolated value between positions `j ≤ k` sits
at or above the first (smallest) entry. -/
theorem sorted_interp_bound (s : List ℚ) (hsorted : s.Sorted (· ≤ ·)) (j k : ℕ)
    (hjk : j ≤ k) (hks : k < s.length) (γ : ℚ) (hγ : 0 ≤ γ) :
    s.getD 0 0 ≤ s.getD j 0 + γ * (s.getD k 0 - s.getD j 0) := by
  have h0k : 0 < s.length := Nat.lt_of_le_of_lt (Nat.zero_le k) hks
  have hjs : j < s.length := Nat.lt_of_le_of_lt hjk hks
  have h1 := hsorted.rel_get_of_le (a := ⟨0, h0k⟩) (b := ⟨j, hjs⟩)
    (Fin.mk_le_mk.mpr (Nat.zero_le j))
  have h2 := hsorted.rel_get_of_le (a := ⟨j, hjs⟩) (b := ⟨k, hks⟩)
    (Fin.mk_le_mk.mpr hjk)
  simp only [List.get_eq_getElem] at h1 h2
  rw [List.getD_eq_getElem _ _ h0k, List.getD_eq_getElem _ _ hjs,
    List.getD_eq_getElem _ _ hks]
  have hprod : 0 ≤ γ * (s[k] - s[j]) := mul_nonneg hγ (by linarith)
  linarith

/-- Index bounds for the interpolation positions of `quantile`. -/
theorem quantile_index_bound (n : ℕ) (α : ℚ) (hn : 0 < n) (h0 : 0 ≤ α) (h1 : α ≤ 1) :
    Int.toNat ⌊α * ((n : ℚ) - 1)⌋ ≤ Int.toNat ⌈α * ((n : ℚ) - 1)⌉ ∧
      Int.toNat ⌈α * ((n : ℚ) - 1)⌉ < n := by
  have h1n : (1 : ℚ) ≤ (n : ℚ) := by exact_mod_cast hn
  have hh0 : 0 ≤ α * ((n : ℚ) - 1) := mul_nonneg h0 (by linarith)
  have hhn : α * ((n : ℚ) - 1) ≤ (n : ℚ) - 1 := by
    calc α * ((n : ℚ) - 1) ≤ 1 * ((n : ℚ) - 1) :=
          mul_le_mul_of_nonneg_right h1 (by linarith)
      _ = (n : ℚ) - 1 := one_mul _
  have hceil : ⌈α * ((n : ℚ) - 1)⌉ ≤ (n : ℤ) - 1 := by
    rw [Int.ceil_le]
    push_cast
    exact hhn
  refine ⟨Int.toNat_le_toNat (Int.floor_le_ceil _), ?_⟩
  omega

/-- The nonnegative interpolation weight `h - ⌊h⌋`. -/
theorem interp_weight_nonneg (h : ℚ) : 0 ≤ h - (⌊h⌋ : ℚ) :=
  sub_nonneg.mpr (Int.floor_le h)

/-- On a non-empty series with `alpha` in `[0, 1]`, the quantile is defined
and some series element lies at or below it. -/
theorem exists_mem_le_quantile (x : ℚ) (tl : List ℚ) (α : ℚ)
    (h0 : 0 ≤ α) (h1 : α ≤ 1) :
    ∃ q, quantile (x :: tl) α = some q ∧ ∃ m ∈ x :: tl, m ≤ q := by
  have hnpos : 0 < (x :: tl).length := by simp
  obtain ⟨hjk, hkn⟩ := quantile_index_bound (x :: tl).length α hnpos h0 h1
  have hslen : ((x :: tl).insertionSort (· ≤ ·)).length = (x :: tl).length :=
    List.length_insertionSort _ _
  have hsorted : ((x :: tl).insertionSort (· ≤ ·)).Sorted (· ≤ ·) :=
    List.sorted_insertionSort _ _
  have hks : Int.toNat ⌈α * (((x :: tl).length : ℚ) - 1)⌉ <
      ((x :: tl).insertionSort (· ≤ ·)).length := by rw [hslen]; exact hkn
  have h0s : 0 < ((x :: tl).insertionSort (· ≤ ·)).length := by rw [hslen]; exact hnpos
  have hbound := sorted_interp_bound ((x :: tl).insertionSort (· ≤ ·)) hsorted
    (Int.toNat ⌊α * (((x :: tl).length : ℚ) - 1)⌋)
    (Int.toNat ⌈α * (((x :: tl).length : ℚ) - 1)⌉) hjk hks
    (α * (((x :: tl).length : ℚ) - 1) - (⌊α * (((x :: tl).length : ℚ) - 1)⌋ : ℚ))
    (interp_weight_nonneg _)
  have hmem : ((x :: tl).insertionSort (· ≤ ·)).getD 0 0 ∈ x :: tl := by
    rw [List.getD_eq_getElem _ _ h0s]
    exact (List.mem_insertionSort _).1 (List.getElem_mem _)
  exact ⟨_, rfl, ⟨_, hmem, hbound⟩⟩

/-- The linear-interpolation quantile of a constant series is the constant. -/
theorem quantile_const (x : ℚ) (tl : List ℚ) (α : ℚ) (c : ℚ)
    (hc : ∀ r ∈ x :: tl, r = c) (h0 : 0 ≤ α) (h1 : α ≤ 1) :
    quantile (x :: tl) α = some c := by
  have hmemc : ∀ y ∈ (x :: tl).insertionSort (· ≤ ·), y = c := by
    intro y hy
    exact hc y ((List.mem_insertionSort _).1 hy)
  have hnpos : 0 < (x :: tl).length := by simp
  obtain ⟨hjk, hkn⟩ := quantile_index_bound (x :: tl).length α hnpos h0 h1
  have hslen : ((x :: tl).insertionSort (· ≤ ·)).length = (x :: tl).length :=
    List.length_insertionSort _ _
  have hjs : Int.toNat ⌊α * (((x :: tl).length : ℚ) - 1)⌋ <
      ((x :: tl).insertionSort (· ≤ ·)).length := by
    rw [hslen]
    exact Nat.lt_of_le_of_lt hjk hkn
  have hks : Int.toNat ⌈α * (((x :: tl).length : ℚ) - 1)⌉ <
      ((x :: tl).insertionSort (· ≤ ·)).length := by rw [hslen]; exact hkn
  have hlo : ((x :: tl).insertionSort (· ≤ ·)).getD
      (Int.toNat ⌊α * (((x :: tl).length : ℚ) - 1)⌋) 0 = c := by
    rw [List.getD_eq_getElem _ _ hjs]
    exact hmemc _ (List.getElem_mem _)
  have hhi : ((x :: tl).insertionSort (· ≤ ·)).getD
      (Int.toNat ⌈α * (((x :: tl).length : ℚ) - 1)⌉) 0 = c := by
    rw [List.getD_eq_getElem _ _ hks]
    exact hmemc _ (List.getElem_mem _)
  have hq : quantile (x :: tl) α = some
      (((x :: tl).insertionSort (· ≤ ·)).getD
          (Int.toNat ⌊α * (((x :: tl).length : ℚ) - 1)⌋) 0 +
        (α * (((x :: tl).length : ℚ) - 1) - (⌊α * (((x :: tl).length : ℚ) - 1)⌋ : ℚ)) *
          (((x :: tl).insertionSort (· ≤ ·)).getD
              (Int.toNat ⌈α * (((x :: tl).length : ℚ) - 1)⌉) 0 -
            ((x :: tl).insertionSort (· ≤ ·)).getD
              (Int.toNat ⌊α * (((x :: tl).length : ℚ) - 1)⌋) 0)) := rfl
  rw [hq, hlo, hhi]
  congr 1
  ring

theorem mean_of_const (x : ℚ) (tl : List ℚ) (c : ℚ) (hc : ∀ r ∈ x :: tl, r = c) :
    mean (x :: tl) = c := by
  have hsum : (x :: tl).sum = (x :: tl).length • c := List.sum_eq_card_nsmul _ c hc
  have hlen : (((x :: tl).length : ℕ) : ℚ) ≠ 0 := by
    have : (0 : ℚ) < (tl.length : ℚ) + 1 := by positivity
    simp only [List.length_cons]
    push_cast
    linarith
  rw [mean, hsum, nsmul_eq_mul, mul_comm, mul_div_assoc, div_self hlen, mul_one]

/-! ## Claim theorems -/

/-- Claim C6: on a non-empty return series with `alpha` in `[0, 1]`, CVaR is
the mean of the returns at or below the `alpha`-quantile, and on a constant
series CVaR(0.05) is that constant. -/
theorem C6_cvar_mean_tail (rs : List ℚ) (α : ℚ) (hne : rs ≠ [])
    (h0 : 0 ≤ α) (h1 : α ≤ 1) :
    (∃ q, quantile rs α = some q ∧
        portfolio_cvar rs α = some (mean (rs.filter (fun r => r ≤ q)))) ∧
      ∀ c, (∀ r ∈ rs, r = c) → portfolio_cvar rs (1/20) = some c := by
  constructor
  · cases rs with
    | nil => exact absurd rfl hne
    | cons x tl =>
      obtain ⟨q, hq, m, hmem, hle⟩ := exists_mem_le_quantile x tl α h0 h1
      refine ⟨q, hq, ?_⟩
      have hmemf : m ∈ (x :: tl).filter (fun r => r ≤ q) :=
        List.mem_filter.mpr ⟨hmem, by simpa using hle⟩
      have hsel : ((x :: tl).filter (fun r => r ≤ q)).isEmpty = false := by
        cases hfe : (x :: tl).filter (fun r => r ≤ q) with
        | nil => rw [hfe] at hmemf; simp at hmemf
        | cons y ys => simp
      simp only [portfolio_cvar, hq, hsel]
      simp
  · intro c hc
    cases rs with
    | nil => exact absurd rfl hne
    | cons x tl =>
      have hq := quantile_const x tl (1/20) c hc (by norm_num) (by norm_num)
      have hfe : (x :: tl).filter (fun r => r ≤ c) = x :: tl :=
        List.filter_eq_self.mpr (fun r hr => by simp [hc r hr])
      simp only [portfolio_cvar, hq, hfe]
      simp [mean_of_const x tl c hc]

/-- Witness for C6 on the constant two-element return series `[1/10, 1/10]`. -/
theorem C6_witness :
    portfolio_cvar [(1 : ℚ)/10, 1/10] (1/20) = some (1/10) := by
  have h := C6_cvar_mean_tail [(1 : ℚ)/10, 1/10] (1/20) (by simp)
    (by norm_num) (by norm_num)
  refine h.2 (1/10) ?_
  intro r hr
  rcases List.mem_cons.mp hr with rfl | hr2
  · rfl
  · simpa using hr2

/-- Claim C1: for every Portfolio constructed from a raw weight vector with
nonzero sum, the stored weights sum to 1 and each stored weight is the
corresponding raw weight divided by the sum of all raw weights. -/
theorem C1_weights_normalized (assets : List TickerWeight)
    (h : (rawWeights assets).sum ≠ 0) :
    (weightsOf assets).sum = 1 ∧
      ∀ i, i < assets.length →
        (weightsOf assets).getD i 0 =
          (rawWeights assets).getD i 0 / (rawWeights assets).sum := by
  refine ⟨normalizeWeights_sum _ h, ?_⟩
  intro i hi
  have hlen : i < (rawWeights assets).length := by simpa [rawWeights] using hi
  unfold weightsOf normalizeWeights
  rw [List.getD_eq_getElem _ _ (by simpa using hlen), List.getElem_map,
    List.getD_eq_getElem _ _ hlen]

/-- Claim C2: each portfolio return is the weighted sum of the per-asset
returns of that period, and on a synthetic 2-asset table with constant
per-period returns `r1`, `r2` and weights `w1`, `w2` every portfolio return
equals `w1*r1 + w2*r2` exactly. -/
theorem C2_portfolio_returns_weighted_sum :
    (∀ (R : List (List ℚ)) (w : List ℚ) (t : ℕ), t < R.length →
        (R.getD t []).length = w.length →
        (portfolio_returns R w).getD t 0 =
          ∑ i ∈ Finset.range w.length, w.getD i 0 * (R.getD t []).getD i 0) ∧
    (∀ (a b r1 r2 w1 w2 : ℚ) (T t : ℕ), a ≠ 0 → b ≠ 0 → 1 + r1 ≠ 0 → 1 + r2 ≠ 0 →
        w1 + w2 = 1 → t < T →
        (portfolio_returns
            (toValues (calculate_market_returns (priceTable a b r1 r2 T)))
            (normalizeWeights [w1, w2])).getD t 0 = w1 * r1 + w2 * r2) := by
  constructor
  · intro R w t ht hw
    have h0 : dot [] w = 0 := rfl
    have hmap : (R.map (fun row => dot row w)).getD t (dot [] w) = dot (R.getD t []) w :=
      List.getD_map _ _ _
    rw [portfolio_returns, ← h0, hmap]
    exact dot_eq_sum _ _ hw
  · intro a b r1 r2 w1 w2 T t ha hb h1 h2 hw ht
    rw [calculate_market_returns_priceTable a b r1 r2 T ha hb h1 h2]
    have hnw : normalizeWeights [w1, w2] = [w1, w2] := by
      simp [normalizeWeights, hw]
    have htv : toValues (List.replicate T [some r1, some r2]) =
        List.replicate T [r1, r2] := by
      simp [toValues, List.map_replicate]
    rw [hnw, htv, portfolio_returns, List.map_replicate,
      List.getD_eq_getElem _ _ (by simpa using ht), List.getElem_replicate]
    show dot [r1, r2] [w1, w2] = w1 * r1 + w2 * r2
    simp [dot]
    ring

/-- Claim C3: the four series of `portfolio_return_metrics` satisfy the
definitional identities — `portfolio_value` compounds `1 + return`
cumulatively, `cumulative_pnl = portfolio_value - 1`, and `pnl` is the
first difference of `portfolio_value` with `pnl[0] = 0`. -/
theorem C3_return_metrics_identities (R : List (List ℚ)) (w : List ℚ)
    (hne : (portfolio_return_metrics R w).1 ≠ []) :
    ((portfolio_return_metrics R w).2.1.getD 0 0 =
        1 + (portfolio_return_metrics R w).1.getD 0 0) ∧
      (∀ t, 0 < t → t < (portfolio_return_metrics R w).1.length →
        (portfolio_return_metrics R w).2.1.getD t 0 =
          (portfolio_return_metrics R w).2.1.getD (t - 1) 0 *
            (1 + (portfolio_return_metrics R w).1.getD t 0)) ∧
      (∀ t, t < (portfolio_return_metrics R w).1.length →
        (portfolio_return_metrics R w).2.2.1.getD t 0 =
          (portfolio_return_metrics R w).2.1.getD t 0 - 1) ∧
      ((portfolio_return_metrics R w).2.2.2.getD 0 0 = 0 ∧
        ∀ t, 0 < t → t < (portfolio_return_metrics R w).1.length →
          (portfolio_return_metrics R w).2.2.2.getD t 0 =
            (portfolio_return_metrics R w).2.1.getD t 0 -
              (portfolio_return_metrics R w).2.1.getD (t - 1) 0) := by
  set rs := portfolio_returns R w with hrs
  have hne' : rs ≠ [] := hne
  have hvlen : (portfolio_value rs).length = rs.length := portfolio_value_length rs
  have hvne : portfolio_value rs ≠ [] := by
    intro hnil
    exact hne' (List.length_eq_zero.mp (by rw [← hvlen, hnil]; rfl))
  refine ⟨portfolio_value_getD_zero rs hne', ?_, ?_, ?_, ?_⟩
  · intro t ht hlt
    obtain ⟨s, rfl⟩ : ∃ s, t = s + 1 := ⟨t - 1, by omega⟩
    have := portfolio_value_getD_succ rs s hlt
    simpa using this
  · intro t hlt
    show (cumulative_pnl rs).getD t 0 = (portfolio_value rs).getD t 0 - 1
    have hv : t < (portfolio_value rs).length := by rw [hvlen]; exact hlt
    have hm : t < ((portfolio_value rs).map (fun v => v - 1)).length := by
      simpa using hv
    rw [cumulative_pnl, List.getD_eq_getElem _ _ hm, List.getElem_map,
      List.getD_eq_getElem _ _ hv]
  · show (pnl rs).getD 0 0 = 0
    exact diffFill_getD_zero _ hvne
  · intro t ht hlt
    obtain ⟨s, rfl⟩ : ∃ s, t = s + 1 := ⟨t - 1, by omega⟩
    show (pnl rs).getD (s + 1) 0 =
      (portfolio_value rs).getD (s + 1) 0 - (portfolio_value rs).getD (s + 1 - 1) 0
    have hv : s + 1 < (portfolio_value rs).length := by rw [hvlen]; exact hlt
    simpa using diffFill_getD_succ (portfolio_value rs) s hv

/-- Witness for C3 on a concrete one-asset, two-period returns table. -/
theorem C3_witness :
    (portfolio_return_metrics [[(1 : ℚ)/10], [1/5]] [1]).2.1.getD 1 0 =
      (portfolio_return_metrics [[(1 : ℚ)/10], [1/5]] [1]).2.1.getD 0 0 *
        (1 + (portfolio_return_metrics [[(1 : ℚ)/10], [1/5]] [1]).1.getD 1 0) := by
  have h := C3_return_metrics_identities [[(1 : ℚ)/10], [1/5]] [1]
    (by simp [portfolio_return_metrics, portfolio_returns])
  exact (h.2.1) 1 (by norm_num) (by simp [portfolio_return_metrics, portfolio_returns])

/-- Witness for C2: a one-period two-asset table for the weighted-sum
identity, and the synthetic table with returns 1/10 and 1/5 under weights
1/2, 1/2 for the constant-return scenario. -/
theorem C2_witness :
    (portfolio_returns [[(1 : ℚ), 2]] [3, 4]).getD 0 0 =
        ∑ i ∈ Finset.range ([3, 4] : List ℚ).length,
          ([3, 4] : List ℚ).getD i 0 * (([[(1 : ℚ), 2]]).getD 0 []).getD i 0 ∧
      (portfolio_returns
          (toValues (calculate_market_returns (priceTable 1 1 (1/10) (1/5) 2)))
          (normalizeWeights [1/2, 1/2])).getD 0 0 = (1/2 : ℚ) * (1/10) + (1/2) * (1/5) :=
  ⟨C2_portfolio_returns_weighted_sum.1 [[(1 : ℚ), 2]] [3, 4] 0 (by norm_num) (by norm_num),
    C2_portfolio_returns_weighted_sum.2 1 1 (1/10) (1/5) (1/2) (1/2) 2 0 (by norm_num)
      (by norm_num) (by norm_num) (by norm_num) (by norm_num) (by norm_num)⟩

/-- Counterexample to C4 as stated: a 3-row price table whose first
observation is missing has a `market_returns` table with 1 row, not
`3 - 1 = 2` — `dropna` also removes the NaN return row the missing value
produces. -/
theorem C4_counterexample :
    ¬ ((calculate_market_returns [[none], [some (1 : ℚ)], [some 2]]).length =
        ([[none], [some (1 : ℚ)], [some 2]] : List (List (Option ℚ))).length - 1) := by
  decide

/-- Claim C4 (amended): `market_returns` has exactly one fewer row than
`market_data` for every non-empty `market_data` table whose rows are
non-empty and all of whose cells are present (non-NaN) nonzero prices. -/
theorem C4_market_returns_length (D : List (List (Option ℚ)))
    (hne : D ≠ [])
    (hrows : ∀ r ∈ D, r ≠ [] ∧ ∀ c ∈ r, c.isSome = true ∧ c ≠ some 0) :
    (calculate_market_returns D).length = D.length - 1 := by
  cases D with
  | nil => exact absurd rfl hne
  | cons r0 rest =>
    rw [calculate_market_returns, pct_change]
    unfold dropna
    obtain ⟨hr0ne, _⟩ := hrows r0 (List.mem_cons_self _ _)
    have hhead : ¬((r0.map fun _ => (none : Option ℚ)).all Option.isSome = true) := by
      cases r0 with
      | nil => exact absurd rfl hr0ne
      | cons c cs => simp
    rw [List.filter_cons_of_neg (by simpa using hhead)]
    have hkeep : ∀ row ∈ (((r0 :: rest).zip (r0 :: rest).tail).map
        (fun p => (p.1.zip p.2).map fun q => pctCell q.1 q.2)),
        row.all Option.isSome = true := by
      intro row hrow
      rcases List.mem_map.mp hrow with ⟨⟨p1, p2⟩, hpmem, rfl⟩
      have hp1 : p1 ∈ r0 :: rest := (List.of_mem_zip hpmem).1
      have hp2 : p2 ∈ r0 :: rest := by
        have := (List.of_mem_zip hpmem).2
        exact List.mem_cons_of_mem _ (by simpa using this)
      rw [List.all_eq_true]
      intro c hc
      rcases List.mem_map.mp hc with ⟨⟨c1, c2⟩, hcmem, rfl⟩
      have hc1 := (hrows p1 hp1).2 c1 (List.of_mem_zip hcmem).1
      have hc2 := (hrows p2 hp2).2 c2 (List.of_mem_zip hcmem).2
      obtain ⟨q1, rfl⟩ := Option.isSome_iff_exists.mp hc1.1
      obtain ⟨q2, rfl⟩ := Option.isSome_iff_exists.mp hc2.1
      have hq1 : q1 ≠ 0 := by
        intro h0
        exact hc1.2 (by rw [h0])
      simp [pctCell, hq1]
    rw [List.filter_eq_self.mpr hkeep]
    simp [List.length_zip]

/-- Witness for the amended C4 on a clean two-row table. -/
theorem C4_witness :
    (calculate_market_returns [[some (1 : ℚ)], [some 2]]).length =
      ([[some (1 : ℚ)], [some 2]] : List (List (Option ℚ))).length - 1 := by
  apply C4_market_returns_length
  · simp
  · decide

/-- Counterexample to C5 as stated: with returns `[-2, 3]` and risk-free
rate 0, a return falls strictly below the rate, yet the Sortino ratio is
the NaN marker (the sample std of a single observation is NaN) — so "NaN
exactly when no return falls below the rate" is false. -/
theorem C5_counterexample :
    sortino [(-2 : ℚ), 3] 0 = none ∧
      (downside_returns [(-2 : ℚ), 3] 0).length ≠ 0 := by
  constructor
  · rfl
  · decide

/-- Claim C5 (amended): the Sortino ratio is the NaN marker whenever at
most one return falls strictly below the risk-free rate (not only when
none does), and it equals `(mean(returns) - rf) / std(downside)` whenever
the downside sample variance is defined; the `v ≠ 0` hypothesis keeps the
quotient away from the IEEE division-by-zero corner the embedding does not
model. -/
theorem C5_sortino_characterization (rs : List ℚ) (rf : ℚ) :
    ((downside_returns rs rf).length ≤ 1 → sortino rs rf = none) ∧
      (∀ v : ℚ, sampleVar (downside_returns rs rf) = some v → v ≠ 0 →
        sortino rs rf = some (((mean rs - rf : ℚ) : ℝ) / Real.sqrt ((v : ℚ) : ℝ))) := by
  constructor
  · intro h
    have hv : sampleVar (downside_returns rs rf) = none := by
      rw [sampleVar, if_pos h]
    have hs : sampleStd (downside_returns rs rf) = none := by
      rw [sampleStd, hv]
      rfl
    rw [sortino, hs]
  · intro v hv _
    have hs : sampleStd (downside_returns rs rf) = some (Real.sqrt ((v : ℚ) : ℝ)) := by
      rw [sampleStd, hv]
      rfl
    rw [sortino, hs]

/-- Witness for C5: no sub-threshold return on `[5, 7]` gives NaN; the two
equal-spread downside returns of `[-1, -3, 8]` give the ratio with
`std = √2`. -/
theorem C5_witness :
    sortino [(5 : ℚ), 7] 0 = none ∧
      sortino [(-1 : ℚ), -3, 8] 0 =
        some (((mean [(-1 : ℚ), -3, 8] - 0 : ℚ) : ℝ) / Real.sqrt ((2 : ℚ) : ℝ)) := by
  constructor
  · exact (C5_sortino_characterization [(5 : ℚ), 7] 0).1 (by decide)
  · refine (C5_sortino_characterization [(-1 : ℚ), -3, 8] 0).2 2 ?_ (by norm_num)
    norm_num [sampleVar, downside_returns, mean, List.filter]

/-- Claim C10: when exactly one return lies strictly below the risk-free
rate, the Sortino ratio is the NaN marker even though a sub-threshold
return exists (sample std of a single observation is NaN). -/
theorem C10_sortino_single_downside (rs : List ℚ) (rf : ℚ)
    (h : (downside_returns rs rf).length = 1) :
    sortino rs rf = none := by
  have hv : sampleVar (downside_returns rs rf) = none := by
    rw [sampleVar, if_pos (by omega)]
  have hs : sampleStd (downside_returns rs rf) = none := by
    rw [sampleStd, hv]
    rfl
  rw [sortino, hs]

/-- Witness for C10 on the series `[-1, 1, 2]` with risk-free rate 0. -/
theorem C10_witness : sortino [(-1 : ℚ), 1, 2] 0 = none :=
  C10_sortino_single_downside [(-1 : ℚ), 1, 2] 0 (by decide)

/-- Claim C7: `asset_volatility_decomposition` has one entry per asset and
its `i`-th entry is the sample std of column `i` of `market_returns`
(asset `i`'s per-period returns) times the `i`-th normalized weight, in the
positional (asset-list) order. -/
theorem C7_asset_volatility_decomposition (R : List (List ℚ)) (w : List ℚ) :
    (asset_volatility_decomposition R w).length = w.length ∧
      ∀ i, i < w.length →
        (asset_volatility_decomposition R w).getD i none =
          (sampleStd (columnGet R i)).map (fun s => s * ((w.getD i 0 : ℚ) : ℝ)) := by
  have hlen : (asset_volatility_decomposition R w).length = w.length := by
    simp [asset_volatility_decomposition, stdAxis0]
  refine ⟨hlen, ?_⟩
  intro i hi
  have hiz : i < (asset_volatility_decomposition R w).length := by rw [hlen]; exact hi
  rw [List.getD_eq_getElem _ _ hiz]
  simp only [asset_volatility_decomposition, stdAxis0, List.getElem_zipWith,
    List.getElem_map, List.getElem_range]
  rw [List.getD_eq_getElem _ _ hi]

/-- Witness for C7 on a concrete 2-period, 2-asset returns table. -/
theorem C7_witness :
    (asset_volatility_decomposition [[(1 : ℚ), 2], [3, 5]] [1/2, 1/3]).getD 0 none =
      (sampleStd (columnGet [[(1 : ℚ), 2], [3, 5]] 0)).map
        (fun s => s * ((([(1 : ℚ)/2, 1/3] : List ℚ).getD 0 0 : ℚ) : ℝ)) :=
  (C7_asset_volatility_decomposition [[(1 : ℚ), 2], [3, 5]] [1/2, 1/3]).2 0 (by norm_num)

/-- Claim C8: with at least two observations, annualized std is
`std(returns) * √12 * 100` (hardcoded monthly annualization), and the
Sharpe ratio divides the mean excess return by that already ×100-scaled
annualized std before multiplying by √12. -/
theorem C8_annualized_metrics (rs : List ℚ) (rf : ℚ) (h2 : 2 ≤ rs.length) :
    portfolio_annualized_std rs =
      some (Real.sqrt (((rs.map (fun x => (x - mean rs) ^ 2)).sum /
          ((rs.length : ℚ) - 1) : ℚ)) * Real.sqrt 12 * 100) ∧
      ∀ s : ℝ, portfolio_annualized_std rs = some s →
        annualized_sharpe rs rf = some (((mean rs - rf : ℚ) : ℝ) / s * Real.sqrt 12) := by
  have hvar : sampleVar rs =
      some ((rs.map (fun x => (x - mean rs) ^ 2)).sum / ((rs.length : ℚ) - 1)) := by
    rw [sampleVar, if_neg (by omega)]
  constructor
  · rw [portfolio_annualized_std, sampleStd, hvar]
    rfl
  · intro s hs
    rw [annualized_sharpe, hs]
    rfl

/-- Witness for C8 on the two-observation series `[0, 1/10]` with
risk-free rate 1/100. -/
theorem C8_witness :
    portfolio_annualized_std [(0 : ℚ), 1/10] =
      some (Real.sqrt ((([(0 : ℚ), 1/10].map
            (fun x => (x - mean [(0 : ℚ), 1/10]) ^ 2)).sum /
          ((([(0 : ℚ), 1/10] : List ℚ).length : ℚ) - 1) : ℚ)) * Real.sqrt 12 * 100) ∧
      annualized_sharpe [(0 : ℚ), 1/10] (1/100) =
        some (((mean [(0 : ℚ), 1/10] - 1/100 : ℚ) : ℝ) /
          (Real.sqrt ((([(0 : ℚ), 1/10].map
              (fun x => (x - mean [(0 : ℚ), 1/10]) ^ 2)).sum /
            ((([(0 : ℚ), 1/10] : List ℚ).length : ℚ) - 1) : ℚ)) * Real.sqrt 12 * 100) *
          Real.sqrt 12) := by
  have h := C8_annualized_metrics [(0 : ℚ), 1/10] (1/100) (by norm_num)
  exact ⟨h.1, h.2 _ h.1⟩

/-- Claim C9: the sweep grid is exactly `[0, 0.05, 0.10, 0.15, 0.20]`; the
sweep builds exactly 5 Portfolios, the `k`-th from raw weights
`[0.6, 0.4 - p, p]` at grid value `p`, each normalizing to sum 1; and it
collects exactly 5 metric records in grid order, whatever the shared
`market_returns` table is. -/
theorem C9_sensitivity_sweep :
    tips_grid = [0, 1/20, 1/10, 3/20, 1/5] ∧
      sweep_portfolios.length = 5 ∧
      (∀ k, k < 5 → sweep_portfolios.getD k [] =
        normalizeWeights [3/5, 2/5 - tips_grid.getD k 0, tips_grid.getD k 0]) ∧
      (∀ wv ∈ sweep_portfolios, wv.sum = 1) ∧
      ∀ R : List (List ℚ), (sweep_metrics R).length = 5 ∧
        ∀ k, k < 5 → (sweep_metrics R).getD k default =
          sweep_point R (sweep_portfolios.getD k []) := by
  have hgrid : tips_grid = [0, 1/20, 1/10, 3/20, 1/5] := by
    have hc : ⌈(((21 : ℚ)/100) - 0) / (1/20)⌉ = (5 : ℤ) := by
      rw [Int.ceil_eq_iff]
      norm_num
    rw [tips_grid, arange, hc]
    rw [show List.range (Int.toNat 5) = [0, 1, 2, 3, 4] from rfl]
    norm_num
  have hplen : sweep_portfolios.length = 5 := by
    simp [sweep_portfolios, sweep_weights, hgrid]
  refine ⟨hgrid, hplen, ?_, ?_, ?_⟩
  · intro k hk
    interval_cases k <;>
      norm_num [sweep_portfolios, sweep_weights, hgrid, normalizeWeights]
  · intro wv hmem
    rcases List.mem_map.mp hmem with ⟨raw, hraw, rfl⟩
    rcases List.mem_map.mp hraw with ⟨p, _, rfl⟩
    have hsum : ([3/5, 2/5 - p, p] : List ℚ).sum = 1 := by
      simp
      ring
    exact normalizeWeights_sum _ (by rw [hsum]; norm_num)
  · intro R
    have hmlen : (sweep_metrics R).length = 5 := by
      simp [sweep_metrics, hplen]
    refine ⟨hmlen, ?_⟩
    intro k hk
    have hk5 : k < sweep_portfolios.length := by rw [hplen]; exact hk
    have hkm : k < (sweep_metrics R).length := by rw [hmlen]; exact hk
    rw [List.getD_eq_getElem _ _ hkm, List.getD_eq_getElem _ _ hk5]
    simp [sweep_metrics]

/-- Witness for C9: the fourth grid point yields raw weights
`[0.6, 0.25, 0.15]`, and the sweep over a concrete one-row returns table
collects 5 records. -/
theorem C9_witness :
    sweep_portfolios.getD 3 [] =
      normalizeWeights [3/5, 2/5 - tips_grid.getD 3 0, tips_grid.getD 3 0] ∧
      (sweep_metrics [[(1 : ℚ), 1, 1]]).length = 5 :=
  ⟨C9_sensitivity_sweep.2.2.1 3 (by norm_num),
    (C9_sensitivity_sweep.2.2.2.2 [[(1 : ℚ), 1, 1]]).1⟩

/-- Witness for C1 at the two-asset portfolio with raw weights 3/5 and 2/5. -/
theorem C1_witness :
    (weightsOf [⟨default, (3 : ℚ)/5⟩, ⟨default, 2/5⟩]).sum = 1 ∧
      (weightsOf [⟨default, (3 : ℚ)/5⟩, ⟨default, 2/5⟩]).getD 0 0 =
        (rawWeights [⟨default, (3 : ℚ)/5⟩, ⟨default, 2/5⟩]).getD 0 0 /
          (rawWeights [⟨default, (3 : ℚ)/5⟩, ⟨default, 2/5⟩]).sum := by
  have h := C1_weights_normalized [⟨default, (3 : ℚ)/5⟩, ⟨default, 2/5⟩]
    (by norm_num [rawWeights])
  exact ⟨h.1, h.2 0 (by norm_num)⟩

end PortfolioSpec
